import Mathlib

/-!
A shallow embedding of the reference `Resize` kernel
(`src/backends/reference/workloads/Resize.cpp`) together with the external
collaborator contracts it relies on (tensor shapes, the layout-indexed offset
computation, the scalar reader/writer access).  Scalar values and the
intermediate floating-point quantities of the kernel are modelled as exact
rationals; a separate binary32 round-to-nearest-even model is used where a
property is specifically about `float` rounding behaviour.
-/

namespace ArmnnResize

/-- Modelled from the spec: a tensor shape (`TensorShape` is an external
collaborator, not part of the sources) is an ordered sequence of four
non-negative integer extents, one per physical axis. -/
structure TensorShape where
  d0 : ℕ
  d1 : ℕ
  d2 : ℕ
  d3 : ℕ
deriving DecidableEq

/-- Modelled from the spec: `shape[i]` access on a 4-D tensor shape. -/
def TensorShape.get (s : TensorShape) : ℕ → ℕ
  | 0 => s.d0
  | 1 => s.d1
  | 2 => s.d2
  | _ => s.d3

/-- Modelled from the spec: the layout descriptor (`DataLayoutIndexed`, an
external collaborator not part of the sources); it identifies which physical
axis holds the logical channel, height and width dimension.  Two canonical
layouts exist: channel-before-spatial (`NCHW`) and channel-after-spatial
(`NHWC`). -/
inductive DataLayout
  | NCHW
  | NHWC
deriving DecidableEq

/-- Modelled from the spec: `DataLayoutIndexed.GetChannelsIndex()`. -/
def DataLayout.channelsIndex : DataLayout → ℕ
  | .NCHW => 1
  | .NHWC => 3

/-- Modelled from the spec: `DataLayoutIndexed.GetHeightIndex()`. -/
def DataLayout.heightIndex : DataLayout → ℕ
  | .NCHW => 2
  | .NHWC => 1

/-- Modelled from the spec: `DataLayoutIndexed.GetWidthIndex()`. -/
def DataLayout.widthIndex : DataLayout → ℕ
  | .NCHW => 3
  | .NHWC => 2

/-- Modelled from the spec: `DataLayoutIndexed.GetIndex` (an external
collaborator, not part of the sources) -- the pure function mapping a logical
`(batch, channel, row, col)` coordinate plus a physical 4-D shape to the flat
element offset, row-major in the physical axis order of the layout. -/
def DataLayout.getIndex (dl : DataLayout) (shape : TensorShape) (n c y x : ℕ) : ℕ :=
  match dl with
  | .NCHW => ((n * shape.get 1 + c) * shape.get 2 + y) * shape.get 3 + x
  | .NHWC => ((n * shape.get 1 + y) * shape.get 2 + x) * shape.get 3 + c

/-- Modelled from the spec: the interpolation-method selector
(`armnn::ResizeMethod` is an external declaration, not part of the sources):
an enumerated choice of NearestNeighbor and Bilinear whose underlying type may
carry other, unrecognized values. -/
inductive ResizeMethod
  | Bilinear
  | NearestNeighbor
  | Unrecognized (v : ℕ)
deriving DecidableEq

/-- The helper `Lerp` (Resize.cpp lines 23-26): `w * b + (1.f - w) * a`. -/
def Lerp (a b w : ℚ) : ℚ := w * b + (1 - w) * a

/-- The real-valued input coordinate corresponding to output coordinate `o`
under scale factor `scale`: `iy = (float)y * scaleY` resp.
`ix = (float)x * scaleX` (Resize.cpp lines 64, 77), idealised as an exact
rational product.  This erases the binary32 rounding of `(float)o` and of the
product, which is exact only while the values stay below `2^24`; claims whose
truth depends on that rounding are settled against the binary32 model
(`inCoordB32` below), not against this idealisation. -/
def inCoord (scale : ℚ) (o : ℕ) : ℚ := (o : ℚ) * scale

/-- The floor `floorf` of the input coordinate: `fiy = floorf(iy)` resp.
`fix = floorf(ix)` (Resize.cpp lines 68, 78). -/
def fcoord (scale : ℚ) (o : ℕ) : ℚ := (⌊inCoord scale o⌋ : ℚ)

/-- The discrete top-left sample coordinate `y0 = (unsigned int)fiy` resp.
`x0 = (unsigned int)fix` (Resize.cpp lines 69, 79), over the exact-rational
idealisation of the coordinate: under it `coord0 1 o = o` for every `o`,
whereas the float program departs from this for extents at or above `2^24`
(see `coord0B32` and the claims settled against it). -/
def coord0 (scale : ℚ) (o : ℕ) : ℕ := (⌊inCoord scale o⌋).toNat

/-- The interpolation weight `yw = iy - fiy` resp. `xw = ix - fix`
(Resize.cpp lines 72, 82). -/
def weight (scale : ℚ) (o : ℕ) : ℚ := inCoord scale o - fcoord scale o

/-- The clamped next sample coordinate `y1 = min(y0 + 1, inputHeight - 1)`
resp. `x1 = min(x0 + 1, inputWidth - 1)` (Resize.cpp lines 85-86). -/
def coord1 (c0 extent : ℕ) : ℕ := min (c0 + 1) (extent - 1)

/-- The square of `distance0` (Resize.cpp lines 109-110): the squared Euclidean
distance from `(fix, fiy)` to `(x0, y0)`.  The kernel compares
`sqrt(dist0Sq) <= sqrt(dist1Sq)`; square root is monotone on non-negative
arguments, so comparing the squares is equivalent (see `dist_sqrt_le_iff`). -/
def dist0Sq (scaleX scaleY : ℚ) (x y : ℕ) : ℚ :=
  (fcoord scaleX x - (coord0 scaleX x : ℚ)) ^ 2 +
    (fcoord scaleY y - (coord0 scaleY y : ℚ)) ^ 2

/-- The square of `distance1` (Resize.cpp lines 111-112): the squared Euclidean
distance from `(fix, fiy)` to `(x1, y1)`. -/
def dist1Sq (scaleX scaleY : ℚ) (x y Win Hin : ℕ) : ℚ :=
  (fcoord scaleX x - (coord1 (coord0 scaleX x) Win : ℚ)) ^ 2 +
    (fcoord scaleY y - (coord1 (coord0 scaleY y) Hin : ℚ)) ^ 2

/-- The per-output-element computation of `Resize` (Resize.cpp lines 64-121):
given the input reader `inp`, the input shape, layout, method, the input
spatial extents and the scale factors, compute the value written to logical
output coordinate `(n, c, y, x)`.  The `NearestNeighbor` arm of the `switch`
carries the `default` label, so every method other than `Bilinear` takes it. -/
def resizePixel (inp : ℕ → ℚ) (inputShape : TensorShape) (dataLayout : DataLayout)
    (resizeMethod : ResizeMethod) (inputHeight inputWidth : ℕ) (scaleY scaleX : ℚ)
    (n c y x : ℕ) : ℚ :=
  let y0 := coord0 scaleY y
  let yw := weight scaleY y
  let x0 := coord0 scaleX x
  let xw := weight scaleX x
  let x1 := coord1 x0 inputWidth
  let y1 := coord1 y0 inputHeight
  match resizeMethod with
  | .Bilinear =>
    let input1 := inp (dataLayout.getIndex inputShape n c y0 x0)
    let input2 := inp (dataLayout.getIndex inputShape n c y0 x1)
    let input3 := inp (dataLayout.getIndex inputShape n c y1 x0)
    let input4 := inp (dataLayout.getIndex inputShape n c y1 x1)
    let ly0 := Lerp input1 input2 xw
    let ly1 := Lerp input3 input4 xw
    Lerp ly0 ly1 yw
  | _ =>
    let nearer := dist0Sq scaleX scaleY x y ≤ dist1Sq scaleX scaleY x y inputWidth inputHeight
    let xNearest := if nearer then x0 else x1
    let yNearest := if nearer then y0 else y1
    inp (dataLayout.getIndex inputShape n c yNearest xNearest)

/-- The sequence of output writes performed by one call of `Resize`
(the loop nest of Resize.cpp lines 57-127, batch outermost, then channel,
then output row, then output column): each entry records the logical output
coordinate `(n, c, y, x)`, the flat output offset the write goes to, and the
written value. -/
def resizeTrace (inp : ℕ → ℚ) (inputShape outputShape : TensorShape)
    (dataLayout : DataLayout) (resizeMethod : ResizeMethod)
    (batchSize channelCount outputHeight outputWidth inputHeight inputWidth : ℕ)
    (scaleY scaleX : ℚ) : List ((ℕ × ℕ × ℕ × ℕ) × ℕ × ℚ) :=
  (List.range batchSize).flatMap fun n =>
    (List.range channelCount).flatMap fun c =>
      (List.range outputHeight).flatMap fun y =>
        (List.range outputWidth).map fun x =>
          ((n, c, y, x), dataLayout.getIndex outputShape n c y x,
            resizePixel inp inputShape dataLayout resizeMethod
              inputHeight inputWidth scaleY scaleX n c y x)

/-- Applying a write trace to the output buffer: each entry sets the buffer at
its flat offset to its value (`out[...]; out.Set(...)`, Resize.cpp
lines 123-124). -/
def applyWrites (l : List ((ℕ × ℕ × ℕ × ℕ) × ℕ × ℚ)) (out0 : ℕ → ℚ) : ℕ → ℚ :=
  l.foldl (fun buf e => Function.update buf e.2.1 e.2.2) out0

/-- The scale factor `inputExtent / outputExtent`, a ratio of the two extents
(Resize.cpp lines 51-52). -/
def scaleFor (inExtent outExtent : ℕ) : ℚ := (inExtent : ℚ) / (outExtent : ℚ)

/-- The `Resize` kernel (Resize.cpp lines 30-127): extract the extents from the
shapes through the layout descriptor, compute the scale factors, and perform
the loop nest of per-element writes on the output buffer `out0`. -/
def Resize (inp : ℕ → ℚ) (inputInfo : TensorShape) (out0 : ℕ → ℚ)
    (outputInfo : TensorShape) (dataLayout : DataLayout)
    (resizeMethod : ResizeMethod) : ℕ → ℚ :=
  let batchSize := inputInfo.get 0
  let channelCount := inputInfo.get dataLayout.channelsIndex
  let inputHeight := inputInfo.get dataLayout.heightIndex
  let inputWidth := inputInfo.get dataLayout.widthIndex
  let outputHeight := outputInfo.get dataLayout.heightIndex
  let outputWidth := outputInfo.get dataLayout.widthIndex
  applyWrites
    (resizeTrace inp inputInfo outputInfo dataLayout resizeMethod
      batchSize channelCount outputHeight outputWidth inputHeight inputWidth
      (scaleFor inputHeight outputHeight) (scaleFor inputWidth outputWidth))
    out0

/-- The physical 4-D shape of a logical batch `N`, channels `C`, height `H`,
width `W` tensor under a given layout. -/
def mkShape (dataLayout : DataLayout) (N C H W : ℕ) : TensorShape :=
  match dataLayout with
  | .NCHW => ⟨N, C, H, W⟩
  | .NHWC => ⟨N, H, W, C⟩

/-- The lexicographic enumeration of the output coordinate box
`[0,N) x [0,C) x [0,H) x [0,W)` in loop order (batch, channel, row, column,
outermost to innermost). -/
def outputCoords (N C H W : ℕ) : List (ℕ × ℕ × ℕ × ℕ) :=
  (List.range N).flatMap fun n =>
    (List.range C).flatMap fun c =>
      (List.range H).flatMap fun y =>
        (List.range W).map fun x => (n, c, y, x)

/-- Modelled from the spec: the simpler function C2 compares the kernel
against -- for each output pixel read the input sample at row
`floor(y * scaleY)` and column `floor(x * scaleX)`. -/
def nearestNeighborSimple (inp : ℕ → ℚ) (inputShape : TensorShape)
    (dataLayout : DataLayout) (scaleY scaleX : ℚ) (n c y x : ℕ) : ℚ :=
  inp (dataLayout.getIndex inputShape n c
    (⌊(y : ℚ) * scaleY⌋).toNat (⌊(x : ℚ) * scaleX⌋).toNat)

/- ### Basic facts about the coordinate computation -/

theorem inCoord_nonneg {scale : ℚ} (h : 0 ≤ scale) (o : ℕ) : 0 ≤ inCoord scale o :=
  mul_nonneg (Nat.cast_nonneg o) h

theorem fcoord_eq_coord0 {scale : ℚ} (h : 0 ≤ scale) (o : ℕ) :
    fcoord scale o = (coord0 scale o : ℚ) := by
  have h0 : 0 ≤ ⌊inCoord scale o⌋ := Int.floor_nonneg.mpr (inCoord_nonneg h o)
  rw [fcoord, coord0]
  rw [show ((⌊inCoord scale o⌋.toNat : ℕ) : ℚ) = ((⌊inCoord scale o⌋.toNat : ℤ) : ℚ) by
    push_cast; ring]
  rw [Int.toNat_of_nonneg h0]

theorem dist0Sq_eq_zero {scaleX scaleY : ℚ} (hx : 0 ≤ scaleX) (hy : 0 ≤ scaleY)
    (x y : ℕ) : dist0Sq scaleX scaleY x y = 0 := by
  rw [dist0Sq, fcoord_eq_coord0 hx, fcoord_eq_coord0 hy]
  ring

theorem dist1Sq_nonneg (scaleX scaleY : ℚ) (x y Win Hin : ℕ) :
    0 ≤ dist1Sq scaleX scaleY x y Win Hin :=
  add_nonneg (sq_nonneg _) (sq_nonneg _)

/-- With non-negative scale factors (always the case in the kernel, where the
scales are ratios of tensor extents), `distance0` is zero, hence the
`NearestNeighbor` arm -- taken by every method except `Bilinear` -- always
selects the top-left sample `(x0, y0)`. -/
theorem resizePixel_nearest {resizeMethod : ResizeMethod}
    (h : resizeMethod ≠ .Bilinear) (inp : ℕ → ℚ) (inputShape : TensorShape)
    (dataLayout : DataLayout) (inputHeight inputWidth : ℕ) {scaleY scaleX : ℚ}
    (hy : 0 ≤ scaleY) (hx : 0 ≤ scaleX) (n c y x : ℕ) :
    resizePixel inp inputShape dataLayout resizeMethod inputHeight inputWidth
        scaleY scaleX n c y x =
      inp (dataLayout.getIndex inputShape n c (coord0 scaleY y) (coord0 scaleX x)) := by
  have hcond : dist0Sq scaleX scaleY x y ≤
      dist1Sq scaleX scaleY x y inputWidth inputHeight := by
    rw [dist0Sq_eq_zero hx hy]
    exact dist1Sq_nonneg _ _ _ _ _ _
  cases resizeMethod with
  | Bilinear => exact absurd rfl h
  | NearestNeighbor =>
    simp only [resizePixel]
    rw [if_pos hcond, if_pos hcond]
  | Unrecognized v =>
    simp only [resizePixel]
    rw [if_pos hcond, if_pos hcond]

theorem Lerp_zero (a b : ℚ) : Lerp a b 0 = a := by rw [Lerp]; ring

theorem Lerp_one (a b : ℚ) : Lerp a b 1 = b := by rw [Lerp]; ring

/- ### Facts about the write trace -/

theorem applyWrites_of_forall_ne (l : List ((ℕ × ℕ × ℕ × ℕ) × ℕ × ℚ))
    (out0 : ℕ → ℚ) (k : ℕ) (h : ∀ e ∈ l, e.2.1 ≠ k) :
    applyWrites l out0 k = out0 k := by
  induction l generalizing out0 with
  | nil => rfl
  | cons hd tl ih =>
    rw [applyWrites, List.foldl_cons, ← applyWrites]
    rw [ih _ fun e he => h e (List.mem_cons_of_mem hd he)]
    exact Function.update_noteq (Ne.symm (h hd (List.mem_cons_self hd tl))) _ _

theorem applyWrites_const (l : List ((ℕ × ℕ × ℕ × ℕ) × ℕ × ℚ))
    (out0 : ℕ → ℚ) (k : ℕ) (v : ℚ) (hall : ∀ e ∈ l, e.2.1 = k → e.2.2 = v)
    (h0 : out0 k = v) : applyWrites l out0 k = v := by
  induction l generalizing out0 with
  | nil => exact h0
  | cons hd tl ih =>
    rw [applyWrites, List.foldl_cons, ← applyWrites]
    refine ih _ (fun e he hk => hall e (List.mem_cons_of_mem hd he) hk) ?_
    by_cases hk : hd.2.1 = k
    · rw [← hk, Function.update_same]
      exact hall hd (List.mem_cons_self hd tl) hk
    · rw [Function.update_noteq (Ne.symm hk)]
      exact h0

theorem applyWrites_mem (l : List ((ℕ × ℕ × ℕ × ℕ) × ℕ × ℚ))
    (out0 : ℕ → ℚ) (k : ℕ) (v : ℚ) (hex : ∃ e ∈ l, e.2.1 = k)
    (hall : ∀ e ∈ l, e.2.1 = k → e.2.2 = v) : applyWrites l out0 k = v := by
  induction l generalizing out0 with
  | nil => obtain ⟨e, he, _⟩ := hex; exact absurd he (List.not_mem_nil e)
  | cons hd tl ih =>
    rw [applyWrites, List.foldl_cons, ← applyWrites]
    by_cases hk : hd.2.1 = k
    · refine applyWrites_const _ _ _ _
        (fun e he h => hall e (List.mem_cons_of_mem hd he) h) ?_
      rw [← hk, Function.update_same]
      exact hall hd (List.mem_cons_self hd tl) hk
    · have hex' : ∃ e ∈ tl, e.2.1 = k := by
        obtain ⟨e, he, hek⟩ := hex
        rcases List.mem_cons.mp he with rfl | he'
        · exact absurd hek hk
        · exact ⟨e, he', hek⟩
      exact ih _ hex' fun e he h => hall e (List.mem_cons_of_mem hd he) h

/- ### Shape extraction and offset injectivity -/

theorem TensorShape.get_one (s : TensorShape) : s.get 1 = s.d1 := rfl

theorem TensorShape.get_two (s : TensorShape) : s.get 2 = s.d2 := rfl

theorem TensorShape.get_three (s : TensorShape) : s.get 3 = s.d3 := rfl

theorem mkShape_get_batch (dl : DataLayout) (N C H W : ℕ) :
    (mkShape dl N C H W).get 0 = N := by cases dl <;> rfl

theorem mkShape_get_channels (dl : DataLayout) (N C H W : ℕ) :
    (mkShape dl N C H W).get dl.channelsIndex = C := by cases dl <;> rfl

theorem mkShape_get_height (dl : DataLayout) (N C H W : ℕ) :
    (mkShape dl N C H W).get dl.heightIndex = H := by cases dl <;> rfl

theorem mkShape_get_width (dl : DataLayout) (N C H W : ℕ) :
    (mkShape dl N C H W).get dl.widthIndex = W := by cases dl <;> rfl

theorem mixedRadix_inj {B a a' b b' : ℕ} (hb : b < B) (hb' : b' < B)
    (h : a * B + b = a' * B + b') : a = a' ∧ b = b' := by
  have hBpos : 0 < B := Nat.lt_of_le_of_lt (Nat.zero_le b) hb
  have hmod : b = b' := by
    have e1 : (a * B + b) % B = b := by
      rw [Nat.add_comm, Nat.add_mul_mod_self_right, Nat.mod_eq_of_lt hb]
    have e2 : (a' * B + b') % B = b' := by
      rw [Nat.add_comm, Nat.add_mul_mod_self_right, Nat.mod_eq_of_lt hb']
    rw [← e1, ← e2, h]
  subst hmod
  refine ⟨?_, rfl⟩
  exact Nat.eq_of_mul_eq_mul_right hBpos (Nat.add_right_cancel h)

/-- Within the coordinate box of a shape, the layout-mapped flat offset is
injective: distinct logical coordinates go to distinct flat offsets. -/
theorem getIndex_inj (dl : DataLayout) (N C H W : ℕ) {n c y x n' c' y' x' : ℕ}
    (hc : c < C) (hy : y < H) (hx : x < W)
    (hc' : c' < C) (hy' : y' < H) (hx' : x' < W)
    (h : dl.getIndex (mkShape dl N C H W) n c y x =
      dl.getIndex (mkShape dl N C H W) n' c' y' x') :
    n = n' ∧ c = c' ∧ y = y' ∧ x = x' := by
  cases dl with
  | NCHW =>
    simp only [DataLayout.getIndex, mkShape, TensorShape.get_one,
      TensorShape.get_two, TensorShape.get_three] at h
    obtain ⟨h1, hxx⟩ := mixedRadix_inj hx hx' h
    obtain ⟨h2, hyy⟩ := mixedRadix_inj hy hy' h1
    obtain ⟨h3, hcc⟩ := mixedRadix_inj hc hc' h2
    exact ⟨h3, hcc, hyy, hxx⟩
  | NHWC =>
    simp only [DataLayout.getIndex, mkShape, TensorShape.get_one,
      TensorShape.get_two, TensorShape.get_three] at h
    obtain ⟨h1, hcc⟩ := mixedRadix_inj hc hc' h
    obtain ⟨h2, hxx⟩ := mixedRadix_inj hx hx' h1
    obtain ⟨h3, hyy⟩ := mixedRadix_inj hy hy' h2
    exact ⟨h3, hcc, hyy, hxx⟩

/- ### Relating the kernel's output buffer to the per-element computation -/

theorem mem_resizeTrace (inp : ℕ → ℚ) (inputShape outputShape : TensorShape)
    (dl : DataLayout) (m : ResizeMethod) (N C Hout Wout Hin Win : ℕ)
    (scaleY scaleX : ℚ) {n c y x : ℕ}
    (hn : n < N) (hc : c < C) (hy : y < Hout) (hx : x < Wout) :
    ((n, c, y, x), dl.getIndex outputShape n c y x,
      resizePixel inp inputShape dl m Hin Win scaleY scaleX n c y x) ∈
      resizeTrace inp inputShape outputShape dl m N C Hout Wout Hin Win scaleY scaleX := by
  simp only [resizeTrace, List.mem_flatMap, List.mem_map, List.mem_range]
  exact ⟨n, hn, c, hc, y, hy, x, hx, rfl⟩

theorem eq_of_mem_resizeTrace {inp : ℕ → ℚ} {inputShape outputShape : TensorShape}
    {dl : DataLayout} {m : ResizeMethod} {N C Hout Wout Hin Win : ℕ}
    {scaleY scaleX : ℚ} {e : (ℕ × ℕ × ℕ × ℕ) × ℕ × ℚ}
    (he : e ∈ resizeTrace inp inputShape outputShape dl m N C Hout Wout Hin Win
      scaleY scaleX) :
    ∃ n c y x, n < N ∧ c < C ∧ y < Hout ∧ x < Wout ∧
      e = ((n, c, y, x), dl.getIndex outputShape n c y x,
        resizePixel inp inputShape dl m Hin Win scaleY scaleX n c y x) := by
  simp only [resizeTrace, List.mem_flatMap, List.mem_map, List.mem_range] at he
  obtain ⟨n, hn, c, hc, y, hy, x, hx, rfl⟩ := he
  exact ⟨n, c, y, x, hn, hc, hy, hx, rfl⟩

/-- The bridge between the whole-kernel functional result and the per-element
computation: after a call of `Resize` on shapes for logical extents
`N, C, Hin, Win` into `N, C, Hout, Wout`, the output buffer holds, at the flat
offset of each in-range logical output coordinate, exactly the value of the
per-element computation for that coordinate. -/
theorem Resize_apply (inp : ℕ → ℚ) (out0 : ℕ → ℚ) (dl : DataLayout)
    (m : ResizeMethod) (N C Hin Win Hout Wout : ℕ) {n c y x : ℕ}
    (hn : n < N) (hc : c < C) (hy : y < Hout) (hx : x < Wout) :
    Resize inp (mkShape dl N C Hin Win) out0 (mkShape dl N C Hout Wout) dl m
        (dl.getIndex (mkShape dl N C Hout Wout) n c y x) =
      resizePixel inp (mkShape dl N C Hin Win) dl m Hin Win
        (scaleFor Hin Hout) (scaleFor Win Wout) n c y x := by
  rw [Resize]
  simp only [mkShape_get_batch, mkShape_get_channels, mkShape_get_height,
    mkShape_get_width]
  refine applyWrites_mem _ _ _ _
    ⟨_, mem_resizeTrace inp _ _ dl m N C Hout Wout Hin Win _ _ hn hc hy hx, rfl⟩ ?_
  intro e he hk
  obtain ⟨n', c', y', x', hn', hc', hy', hx', rfl⟩ := eq_of_mem_resizeTrace he
  obtain ⟨rfl, rfl, rfl, rfl⟩ := getIndex_inj dl N C Hout Wout hc' hy' hx' hc hy hx hk
  rfl

/- ### Arithmetic facts about the coordinate computation -/

theorem scaleFor_nonneg (a b : ℕ) : 0 ≤ scaleFor a b :=
  div_nonneg (Nat.cast_nonneg a) (Nat.cast_nonneg b)

theorem scaleFor_self {a : ℕ} (h : 0 < a) : scaleFor a a = 1 := by
  rw [scaleFor]
  exact div_self (Nat.cast_ne_zero.mpr (Nat.pos_iff_ne_zero.mp h))

theorem inCoord_natCast (k o : ℕ) : inCoord (k : ℚ) o = ((o * k : ℕ) : ℚ) := by
  rw [inCoord]; push_cast; ring

theorem coord0_natCast (k o : ℕ) : coord0 (k : ℚ) o = o * k := by
  rw [coord0, inCoord_natCast, Int.floor_natCast]
  exact Int.toNat_natCast _

theorem fcoord_natCast (k o : ℕ) : fcoord (k : ℚ) o = ((o * k : ℕ) : ℚ) := by
  rw [fcoord, inCoord_natCast, Int.floor_natCast]
  push_cast
  ring

theorem weight_natCast (k o : ℕ) : weight (k : ℚ) o = 0 := by
  rw [weight, fcoord_natCast, inCoord_natCast, sub_self]

theorem coord0_one (o : ℕ) : coord0 1 o = o := by
  rw [show (1 : ℚ) = ((1 : ℕ) : ℚ) by norm_num, coord0_natCast, mul_one]

theorem weight_one (o : ℕ) : weight 1 o = 0 := by
  rw [show (1 : ℚ) = ((1 : ℕ) : ℚ) by norm_num, weight_natCast]

/-- Unfolding of the `Bilinear` arm: four reads and three linear
interpolations (Resize.cpp lines 90-105). -/
theorem resizePixel_bilinear (inp : ℕ → ℚ) (inputShape : TensorShape)
    (dataLayout : DataLayout) (inputHeight inputWidth : ℕ) (scaleY scaleX : ℚ)
    (n c y x : ℕ) :
    resizePixel inp inputShape dataLayout .Bilinear inputHeight inputWidth
        scaleY scaleX n c y x =
      Lerp
        (Lerp (inp (dataLayout.getIndex inputShape n c (coord0 scaleY y) (coord0 scaleX x)))
          (inp (dataLayout.getIndex inputShape n c (coord0 scaleY y)
            (coord1 (coord0 scaleX x) inputWidth)))
          (weight scaleX x))
        (Lerp (inp (dataLayout.getIndex inputShape n c
            (coord1 (coord0 scaleY y) inputHeight) (coord0 scaleX x)))
          (inp (dataLayout.getIndex inputShape n c
            (coord1 (coord0 scaleY y) inputHeight) (coord1 (coord0 scaleX x) inputWidth)))
          (weight scaleX x))
        (weight scaleY y) := rfl

/-- Monotonicity of the square root lets the squared-distance comparison in the
embedding stand for the kernel's comparison of the two square roots. -/
theorem dist_sqrt_le_iff (a b : ℚ) (_ha : 0 ≤ a) (hb : 0 ≤ b) :
    (Real.sqrt (a : ℝ) ≤ Real.sqrt (b : ℝ)) ↔ a ≤ b := by
  rw [Real.sqrt_le_sqrt_iff (by exact_mod_cast hb)]
  exact_mod_cast Iff.rfl

/- ### Claim theorems -/

/-- Claim C9: for every input and every resize-method value other than
Bilinear and NearestNeighbor, the kernel's output is identical to the output
produced with method set to NearestNeighbor: the unrecognized value takes the
`default` arm of the `switch`, which is shared with the NearestNeighbor case. -/
theorem C9_unrecognized_method_is_nearest (inp : ℕ → ℚ) (inputInfo : TensorShape)
    (out0 : ℕ → ℚ) (outputInfo : TensorShape) (dataLayout : DataLayout) (v : ℕ) :
    Resize inp inputInfo out0 outputInfo dataLayout (.Unrecognized v) =
      Resize inp inputInfo out0 outputInfo dataLayout .NearestNeighbor := rfl

/-- Claim C2: because `fix = floorf(ix)` and `x0 = (unsigned)fix` (and
symmetrically for `y`), the distance from `(fix, fiy)` to `(x0, y0)` is exactly
zero, so the NearestNeighbor method always selects `(x0, y0)` and never
`(x1, y1)`; it is extensionally equal to the simpler function that reads the
input sample at `(floor(y*scaleY), floor(x*scaleX))`. -/
theorem C2_nearest_reads_floor_coords (inp : ℕ → ℚ) (out0 : ℕ → ℚ)
    (dl : DataLayout) (N C Hin Win Hout Wout : ℕ) {n c y x : ℕ}
    (hn : n < N) (hc : c < C) (hy : y < Hout) (hx : x < Wout) :
    dist0Sq (scaleFor Win Wout) (scaleFor Hin Hout) x y = 0 ∧
    Resize inp (mkShape dl N C Hin Win) out0 (mkShape dl N C Hout Wout) dl
        .NearestNeighbor (dl.getIndex (mkShape dl N C Hout Wout) n c y x) =
      nearestNeighborSimple inp (mkShape dl N C Hin Win) dl
        (scaleFor Hin Hout) (scaleFor Win Wout) n c y x := by
  refine ⟨dist0Sq_eq_zero (scaleFor_nonneg Win Wout) (scaleFor_nonneg Hin Hout) x y, ?_⟩
  rw [Resize_apply inp out0 dl .NearestNeighbor N C Hin Win Hout Wout hn hc hy hx,
    resizePixel_nearest (by simp) inp _ dl Hin Win
      (scaleFor_nonneg Hin Hout) (scaleFor_nonneg Win Wout)]
  rfl

theorem C2_nearest_reads_floor_coords_witness :
    dist0Sq (scaleFor 4 2) (scaleFor 4 2) 1 1 = 0 ∧
    Resize (fun i => (i : ℚ)) (mkShape .NCHW 1 1 4 4) (fun _ => 0)
        (mkShape .NCHW 1 1 2 2) .NCHW .NearestNeighbor
        (DataLayout.NCHW.getIndex (mkShape .NCHW 1 1 2 2) 0 0 1 1) =
      nearestNeighborSimple (fun i => (i : ℚ)) (mkShape .NCHW 1 1 4 4) .NCHW
        (scaleFor 4 2) (scaleFor 4 2) 0 0 1 1 :=
  C2_nearest_reads_floor_coords (fun i => (i : ℚ)) (fun _ => 0) .NCHW 1 1 4 4 2 2
    (by decide) (by decide) (by decide) (by decide)

/-- Claim C4: the Bilinear method reads the four input samples at
`(y0,x0), (y0,x1), (y1,x0), (y1,x1)`, interpolates along the width at rows
`y0` and `y1` with weight `xw` and then vertically with weight `yw`, where
`lerp(a,b,w) = w*b + (1-w)*a`; this lerp yields `a` exactly at `w = 0` and `b`
exactly at `w = 1`. -/
theorem C4_bilinear_reads_and_lerps (inp : ℕ → ℚ) (out0 : ℕ → ℚ)
    (dl : DataLayout) (N C Hin Win Hout Wout : ℕ) {n c y x : ℕ}
    (hn : n < N) (hc : c < C) (hy : y < Hout) (hx : x < Wout) :
    (∀ a b : ℚ, Lerp a b 0 = a) ∧ (∀ a b : ℚ, Lerp a b 1 = b) ∧
    Resize inp (mkShape dl N C Hin Win) out0 (mkShape dl N C Hout Wout) dl
        .Bilinear (dl.getIndex (mkShape dl N C Hout Wout) n c y x) =
      Lerp
        (Lerp
          (inp (dl.getIndex (mkShape dl N C Hin Win) n c
            (coord0 (scaleFor Hin Hout) y) (coord0 (scaleFor Win Wout) x)))
          (inp (dl.getIndex (mkShape dl N C Hin Win) n c
            (coord0 (scaleFor Hin Hout) y) (coord1 (coord0 (scaleFor Win Wout) x) Win)))
          (weight (scaleFor Win Wout) x))
        (Lerp
          (inp (dl.getIndex (mkShape dl N C Hin Win) n c
            (coord1 (coord0 (scaleFor Hin Hout) y) Hin) (coord0 (scaleFor Win Wout) x)))
          (inp (dl.getIndex (mkShape dl N C Hin Win) n c
            (coord1 (coord0 (scaleFor Hin Hout) y) Hin)
            (coord1 (coord0 (scaleFor Win Wout) x) Win)))
          (weight (scaleFor Win Wout) x))
        (weight (scaleFor Hin Hout) y) := by
  refine ⟨Lerp_zero, Lerp_one, ?_⟩
  rw [Resize_apply inp out0 dl .Bilinear N C Hin Win Hout Wout hn hc hy hx]
  exact resizePixel_bilinear inp _ dl Hin Win _ _ n c y x

theorem C4_bilinear_reads_and_lerps_witness :
    Lerp 2 5 0 = 2 :=
  (C4_bilinear_reads_and_lerps (fun i => (i : ℚ)) (fun _ => 0) .NCHW 1 1 4 4 2 2
    (n := 0) (c := 0) (y := 1) (x := 1)
    (by decide) (by decide) (by decide) (by decide)).1 2 5

/-- Claim C1: the NearestNeighbor method compares the Euclidean distance from
`(fix, fiy)` to `(x0, y0)` with the distance to `(x1, y1)`: it writes the
sample at `(x0, y0)` unmodified whenever the first distance is less than or
equal to the second, otherwise the one at `(x1, y1)`; at exact ties it writes
the `(x0, y0)` sample. -/
theorem C1_nearest_distance_selection (inp : ℕ → ℚ) (out0 : ℕ → ℚ)
    (dl : DataLayout) (N C Hin Win Hout Wout : ℕ) {n c y x : ℕ}
    (hn : n < N) (hc : c < C) (hy : y < Hout) (hx : x < Wout) :
    (Real.sqrt ((dist0Sq (scaleFor Win Wout) (scaleFor Hin Hout) x y : ℚ) : ℝ) ≤
        Real.sqrt ((dist1Sq (scaleFor Win Wout) (scaleFor Hin Hout) x y Win Hin : ℚ) : ℝ) →
      Resize inp (mkShape dl N C Hin Win) out0 (mkShape dl N C Hout Wout) dl
          .NearestNeighbor (dl.getIndex (mkShape dl N C Hout Wout) n c y x) =
        inp (dl.getIndex (mkShape dl N C Hin Win) n c
          (coord0 (scaleFor Hin Hout) y) (coord0 (scaleFor Win Wout) x))) ∧
    (¬ Real.sqrt ((dist0Sq (scaleFor Win Wout) (scaleFor Hin Hout) x y : ℚ) : ℝ) ≤
        Real.sqrt ((dist1Sq (scaleFor Win Wout) (scaleFor Hin Hout) x y Win Hin : ℚ) : ℝ) →
      Resize inp (mkShape dl N C Hin Win) out0 (mkShape dl N C Hout Wout) dl
          .NearestNeighbor (dl.getIndex (mkShape dl N C Hout Wout) n c y x) =
        inp (dl.getIndex (mkShape dl N C Hin Win) n c
          (coord1 (coord0 (scaleFor Hin Hout) y) Hin)
          (coord1 (coord0 (scaleFor Win Wout) x) Win))) ∧
    (Real.sqrt ((dist0Sq (scaleFor Win Wout) (scaleFor Hin Hout) x y : ℚ) : ℝ) =
        Real.sqrt ((dist1Sq (scaleFor Win Wout) (scaleFor Hin Hout) x y Win Hin : ℚ) : ℝ) →
      Resize inp (mkShape dl N C Hin Win) out0 (mkShape dl N C Hout Wout) dl
          .NearestNeighbor (dl.getIndex (mkShape dl N C Hout Wout) n c y x) =
        inp (dl.getIndex (mkShape dl N C Hin Win) n c
          (coord0 (scaleFor Hin Hout) y) (coord0 (scaleFor Win Wout) x))) := by
  have h0 : dist0Sq (scaleFor Win Wout) (scaleFor Hin Hout) x y = 0 :=
    dist0Sq_eq_zero (scaleFor_nonneg Win Wout) (scaleFor_nonneg Hin Hout) x y
  have hle : Real.sqrt ((dist0Sq (scaleFor Win Wout) (scaleFor Hin Hout) x y : ℚ) : ℝ) ≤
      Real.sqrt ((dist1Sq (scaleFor Win Wout) (scaleFor Hin Hout) x y Win Hin : ℚ) : ℝ) := by
    rw [h0]
    rw [show ((0 : ℚ) : ℝ) = 0 from Rat.cast_zero, Real.sqrt_zero]
    exact Real.sqrt_nonneg _
  have heq : Resize inp (mkShape dl N C Hin Win) out0 (mkShape dl N C Hout Wout) dl
      .NearestNeighbor (dl.getIndex (mkShape dl N C Hout Wout) n c y x) =
      inp (dl.getIndex (mkShape dl N C Hin Win) n c
        (coord0 (scaleFor Hin Hout) y) (coord0 (scaleFor Win Wout) x)) := by
    rw [Resize_apply inp out0 dl .NearestNeighbor N C Hin Win Hout Wout hn hc hy hx]
    exact resizePixel_nearest (by simp) inp _ dl Hin Win
      (scaleFor_nonneg Hin Hout) (scaleFor_nonneg Win Wout) n c y x
  exact ⟨fun _ => heq, fun hcontra => absurd hle hcontra, fun _ => heq⟩

theorem C1_nearest_distance_selection_witness :
    Resize (fun i => (i : ℚ)) (mkShape .NCHW 1 1 1 1) (fun _ => 0)
        (mkShape .NCHW 1 1 1 1) .NCHW .NearestNeighbor
        (DataLayout.NCHW.getIndex (mkShape .NCHW 1 1 1 1) 0 0 0 0) =
      (fun i => (i : ℚ)) (DataLayout.NCHW.getIndex (mkShape .NCHW 1 1 1 1) 0 0
        (coord0 (scaleFor 1 1) 0) (coord0 (scaleFor 1 1) 0)) :=
  (C1_nearest_distance_selection (fun i => (i : ℚ)) (fun _ => 0) .NCHW 1 1 1 1 1 1
    (by decide) (by decide) (by decide) (by decide)).1
    (Real.sqrt_le_sqrt (by norm_num [dist0Sq, dist1Sq, scaleFor, fcoord, coord0,
      coord1, inCoord]))

/-- Claim C6: the second sample coordinates are clamped,
`y1 = min(y0+1, Hin-1)` and `x1 = min(x0+1, Win-1)`, so they never exceed the
last valid row/column (edge replication, no wrap-around: below the border the
clamp is the identity `y0+1`); and for NearestNeighbor, when the computed `y0`
(resp. `x0`) is the last row (resp. column), the output equals the input at
that last row (resp. column) exactly. -/
theorem C6_boundary_clamp (inp : ℕ → ℚ) (out0 : ℕ → ℚ)
    (dl : DataLayout) (N C Hin Win Hout Wout : ℕ) {n c y x : ℕ}
    (hn : n < N) (hc : c < C) (hy : y < Hout) (hx : x < Wout) :
    coord1 (coord0 (scaleFor Hin Hout) y) Hin ≤ Hin - 1 ∧
    coord1 (coord0 (scaleFor Win Wout) x) Win ≤ Win - 1 ∧
    (coord0 (scaleFor Hin Hout) y + 1 ≤ Hin - 1 →
      coord1 (coord0 (scaleFor Hin Hout) y) Hin = coord0 (scaleFor Hin Hout) y + 1) ∧
    (coord0 (scaleFor Win Wout) x + 1 ≤ Win - 1 →
      coord1 (coord0 (scaleFor Win Wout) x) Win = coord0 (scaleFor Win Wout) x + 1) ∧
    (coord0 (scaleFor Hin Hout) y = Hin - 1 →
      Resize inp (mkShape dl N C Hin Win) out0 (mkShape dl N C Hout Wout) dl
          .NearestNeighbor (dl.getIndex (mkShape dl N C Hout Wout) n c y x) =
        inp (dl.getIndex (mkShape dl N C Hin Win) n c (Hin - 1)
          (coord0 (scaleFor Win Wout) x))) ∧
    (coord0 (scaleFor Win Wout) x = Win - 1 →
      Resize inp (mkShape dl N C Hin Win) out0 (mkShape dl N C Hout Wout) dl
          .NearestNeighbor (dl.getIndex (mkShape dl N C Hout Wout) n c y x) =
        inp (dl.getIndex (mkShape dl N C Hin Win) n c
          (coord0 (scaleFor Hin Hout) y) (Win - 1))) := by
  have heq : Resize inp (mkShape dl N C Hin Win) out0 (mkShape dl N C Hout Wout) dl
      .NearestNeighbor (dl.getIndex (mkShape dl N C Hout Wout) n c y x) =
      inp (dl.getIndex (mkShape dl N C Hin Win) n c
        (coord0 (scaleFor Hin Hout) y) (coord0 (scaleFor Win Wout) x)) := by
    rw [Resize_apply inp out0 dl .NearestNeighbor N C Hin Win Hout Wout hn hc hy hx]
    exact resizePixel_nearest (by simp) inp _ dl Hin Win
      (scaleFor_nonneg Hin Hout) (scaleFor_nonneg Win Wout) n c y x
  refine ⟨min_le_right _ _, min_le_right _ _,
    fun h => min_eq_left h, fun h => min_eq_left h, fun h => ?_, fun h => ?_⟩
  · rw [heq, h]
  · rw [heq, h]

theorem C6_boundary_clamp_witness :
    coord1 (coord0 (scaleFor 4 2) 1) 4 ≤ 4 - 1 ∧
    (coord0 (scaleFor 4 2) 1 = 4 - 1 →
      Resize (fun i => (i : ℚ)) (mkShape .NCHW 1 1 4 4) (fun _ => 0)
          (mkShape .NCHW 1 1 2 2) .NCHW .NearestNeighbor
          (DataLayout.NCHW.getIndex (mkShape .NCHW 1 1 2 2) 0 0 1 1) =
        (fun i => (i : ℚ)) (DataLayout.NCHW.getIndex (mkShape .NCHW 1 1 4 4) 0 0
          (4 - 1) (coord0 (scaleFor 4 2) 1))) :=
  ⟨(C6_boundary_clamp (fun i => (i : ℚ)) (fun _ => 0) .NCHW 1 1 4 4 2 2
      (n := 0) (c := 0) (y := 1) (x := 1)
      (by decide) (by decide) (by decide) (by decide)).1,
    (C6_boundary_clamp (fun i => (i : ℚ)) (fun _ => 0) .NCHW 1 1 4 4 2 2
      (n := 0) (c := 0) (y := 1) (x := 1)
      (by decide) (by decide) (by decide) (by decide)).2.2.2.2.1⟩

/-- Claim C3: the scale factors are exact ratios, so resizing a `1x1x4x4`
input to spatial size `2x2` has `scaleY = scaleX = 2`; every output coordinate
lands exactly on an input sample (fractional weight zero), and the bilinear
output at `(y, x)` is the unblended copy of the input sample at
`(2*y, 2*x)`. -/
theorem C3_corner_alignment_4x4_to_2x2 (inp : ℕ → ℚ) (out0 : ℕ → ℚ)
    (dl : DataLayout) {y x : ℕ} (hy : y < 2) (hx : x < 2) :
    scaleFor 4 2 = 2 ∧ weight (scaleFor 4 2) y = 0 ∧ weight (scaleFor 4 2) x = 0 ∧
    Resize inp (mkShape dl 1 1 4 4) out0 (mkShape dl 1 1 2 2) dl .Bilinear
        (dl.getIndex (mkShape dl 1 1 2 2) 0 0 y x) =
      inp (dl.getIndex (mkShape dl 1 1 4 4) 0 0 (2 * y) (2 * x)) := by
  have h2 : scaleFor 4 2 = ((2 : ℕ) : ℚ) := by rw [scaleFor]; norm_num
  refine ⟨by rw [h2]; norm_num, by rw [h2, weight_natCast],
    by rw [h2, weight_natCast], ?_⟩
  rw [Resize_apply inp out0 dl .Bilinear 1 1 4 4 2 2 (by decide) (by decide) hy hx,
    resizePixel_bilinear]
  simp only [h2, weight_natCast, coord0_natCast, Lerp_zero]
  rw [Nat.mul_comm y 2, Nat.mul_comm x 2]

theorem C3_corner_alignment_4x4_to_2x2_witness :
    Resize (fun i => (i : ℚ)) (mkShape .NCHW 1 1 4 4) (fun _ => 0)
        (mkShape .NCHW 1 1 2 2) .NCHW .Bilinear
        (DataLayout.NCHW.getIndex (mkShape .NCHW 1 1 2 2) 0 0 1 1) =
      (fun i => (i : ℚ)) (DataLayout.NCHW.getIndex (mkShape .NCHW 1 1 4 4) 0 0
        (2 * 1) (2 * 1)) :=
  (C3_corner_alignment_4x4_to_2x2 (fun i => (i : ℚ)) (fun _ => 0) .NCHW
    (by decide) (by decide)).2.2.2

/-- Two layout/shape/reader combinations that agree on every logical input
sample give the same per-element result: the per-element computation touches
the input only through layout-mapped logical coordinates. -/
theorem resizePixel_congr {inp1 inp2 : ℕ → ℚ} {sh1 sh2 : TensorShape}
    {dl1 dl2 : DataLayout} (m : ResizeMethod) (Hin Win : ℕ) (sY sX : ℚ)
    (n c y x : ℕ)
    (hagree : ∀ a b : ℕ, inp1 (dl1.getIndex sh1 n c a b) =
      inp2 (dl2.getIndex sh2 n c a b)) :
    resizePixel inp1 sh1 dl1 m Hin Win sY sX n c y x =
      resizePixel inp2 sh2 dl2 m Hin Win sY sX n c y x := by
  cases m <;> simp [resizePixel, hagree]

/-- Claim C10: resizing the same logical tensor expressed in channel-first
(NCHW) and channel-last (NHWC) physical layout produces numerically identical
logical results: if the two input buffers agree at every logical coordinate
through their respective layout maps, the values written for each logical
output coordinate agree as well. -/
theorem C10_layout_invariance (inp1 inp2 out1 out2 : ℕ → ℚ) (m : ResizeMethod)
    (N C Hin Win Hout Wout : ℕ) {n c y x : ℕ}
    (hagree : ∀ n' c' y' x',
      inp1 (DataLayout.NCHW.getIndex (mkShape .NCHW N C Hin Win) n' c' y' x') =
      inp2 (DataLayout.NHWC.getIndex (mkShape .NHWC N C Hin Win) n' c' y' x'))
    (hn : n < N) (hc : c < C) (hy : y < Hout) (hx : x < Wout) :
    Resize inp1 (mkShape .NCHW N C Hin Win) out1 (mkShape .NCHW N C Hout Wout)
        .NCHW m (DataLayout.NCHW.getIndex (mkShape .NCHW N C Hout Wout) n c y x) =
      Resize inp2 (mkShape .NHWC N C Hin Win) out2 (mkShape .NHWC N C Hout Wout)
        .NHWC m (DataLayout.NHWC.getIndex (mkShape .NHWC N C Hout Wout) n c y x) := by
  rw [Resize_apply inp1 out1 .NCHW m N C Hin Win Hout Wout hn hc hy hx,
    Resize_apply inp2 out2 .NHWC m N C Hin Win Hout Wout hn hc hy hx]
  exact resizePixel_congr m Hin Win _ _ n c y x fun a b => hagree n c a b

theorem C10_layout_invariance_witness :
    Resize (fun _ => (7 : ℚ)) (mkShape .NCHW 1 1 1 1) (fun _ => 0)
        (mkShape .NCHW 1 1 1 1) .NCHW .Bilinear
        (DataLayout.NCHW.getIndex (mkShape .NCHW 1 1 1 1) 0 0 0 0) =
      Resize (fun _ => (7 : ℚ)) (mkShape .NHWC 1 1 1 1) (fun _ => 0)
        (mkShape .NHWC 1 1 1 1) .NHWC .Bilinear
        (DataLayout.NHWC.getIndex (mkShape .NHWC 1 1 1 1) 0 0 0 0) :=
  C10_layout_invariance (fun _ => (7 : ℚ)) (fun _ => (7 : ℚ)) (fun _ => 0)
    (fun _ => 0) .Bilinear 1 1 1 1 1 1 (fun _ _ _ _ => rfl)
    (by decide) (by decide) (by decide) (by decide)

/- ### Coverage of the output coordinate box -/

theorem nodup_flatMap_key {α β : Type} {l : List α} {f : α → List β} (key : β → α)
    (hl : l.Nodup) (hf : ∀ a ∈ l, (f a).Nodup)
    (hkey : ∀ a ∈ l, ∀ b ∈ f a, key b = a) : (l.flatMap f).Nodup := by
  rw [List.nodup_flatMap]
  refine ⟨hf, List.Pairwise.imp_of_mem ?_ hl⟩
  intro a b ha hb hab
  intro p hpa hpb
  exact hab ((hkey a ha p hpa).symm.trans (hkey b hb p hpb))

theorem nodup_outputCoords (N C H W : ℕ) : (outputCoords N C H W).Nodup := by
  rw [outputCoords]
  refine nodup_flatMap_key (fun p => p.1) (List.nodup_range _) (fun n _ => ?_) ?_
  · refine nodup_flatMap_key (fun p => p.2.1) (List.nodup_range _) (fun c _ => ?_) ?_
    · refine nodup_flatMap_key (fun p => p.2.2.1) (List.nodup_range _) (fun y _ => ?_) ?_
      · refine List.Nodup.map ?_ (List.nodup_range _)
        intro a b hab
        simpa using hab
      · intro y _ p hp
        simp only [List.mem_map] at hp
        obtain ⟨x, _, rfl⟩ := hp
        rfl
    · intro c _ p hp
      simp only [List.mem_flatMap, List.mem_map] at hp
      obtain ⟨y, _, x, _, rfl⟩ := hp
      rfl
  · intro n _ p hp
    simp only [List.mem_flatMap, List.mem_map] at hp
    obtain ⟨c, _, y, _, x, _, rfl⟩ := hp
    rfl

theorem resizeTrace_map_fst (inp : ℕ → ℚ) (inputShape outputShape : TensorShape)
    (dl : DataLayout) (m : ResizeMethod) (N C Hout Wout Hin Win : ℕ)
    (scaleY scaleX : ℚ) :
    (resizeTrace inp inputShape outputShape dl m N C Hout Wout Hin Win
      scaleY scaleX).map Prod.fst = outputCoords N C Hout Wout := by
  simp only [resizeTrace, outputCoords, List.map_flatMap, List.map_map]
  rfl

theorem length_resizeTrace (inp : ℕ → ℚ) (inputShape outputShape : TensorShape)
    (dl : DataLayout) (m : ResizeMethod) (N C Hout Wout Hin Win : ℕ)
    (scaleY scaleX : ℚ) :
    (resizeTrace inp inputShape outputShape dl m N C Hout Wout Hin Win
      scaleY scaleX).length = N * C * Hout * Wout := by
  simp [resizeTrace, List.length_flatMap, Function.comp_def, List.map_const',
    List.sum_replicate, smul_eq_mul]
  ring

/-- Claim C8: one call of `Resize` performs exactly the write sequence
`resizeTrace`; the logical coordinates written are precisely the lexicographic
enumeration of `[0,N) x [0,C) x [0,Hout) x [0,Wout)` in loop order (batch,
channel, row, column, outermost to innermost), with no coordinate repeated and
none skipped (`N*C*Hout*Wout` writes in total); and every write goes to the
flat offset of its own logical coordinate with a value computed from the input
reader alone. -/
theorem C8_writes_each_output_once_in_order (inp : ℕ → ℚ) (out0 : ℕ → ℚ)
    (dl : DataLayout) (m : ResizeMethod) (N C Hin Win Hout Wout : ℕ) :
    Resize inp (mkShape dl N C Hin Win) out0 (mkShape dl N C Hout Wout) dl m =
      applyWrites (resizeTrace inp (mkShape dl N C Hin Win)
        (mkShape dl N C Hout Wout) dl m N C Hout Wout Hin Win
        (scaleFor Hin Hout) (scaleFor Win Wout)) out0 ∧
    (resizeTrace inp (mkShape dl N C Hin Win) (mkShape dl N C Hout Wout) dl m
        N C Hout Wout Hin Win (scaleFor Hin Hout) (scaleFor Win Wout)).map
        Prod.fst = outputCoords N C Hout Wout ∧
    (outputCoords N C Hout Wout).Nodup ∧
    (resizeTrace inp (mkShape dl N C Hin Win) (mkShape dl N C Hout Wout) dl m
        N C Hout Wout Hin Win (scaleFor Hin Hout) (scaleFor Win Wout)).length =
      N * C * Hout * Wout ∧
    (∀ e ∈ resizeTrace inp (mkShape dl N C Hin Win) (mkShape dl N C Hout Wout)
        dl m N C Hout Wout Hin Win (scaleFor Hin Hout) (scaleFor Win Wout),
      e.2.1 = dl.getIndex (mkShape dl N C Hout Wout)
          e.1.1 e.1.2.1 e.1.2.2.1 e.1.2.2.2 ∧
      e.2.2 = resizePixel inp (mkShape dl N C Hin Win) dl m Hin Win
          (scaleFor Hin Hout) (scaleFor Win Wout)
          e.1.1 e.1.2.1 e.1.2.2.1 e.1.2.2.2) := by
  refine ⟨?_, resizeTrace_map_fst _ _ _ _ _ _ _ _ _ _ _ _ _,
    nodup_outputCoords _ _ _ _, length_resizeTrace _ _ _ _ _ _ _ _ _ _ _ _ _,
    fun e he => ?_⟩
  · rw [Resize]
    simp only [mkShape_get_batch, mkShape_get_channels, mkShape_get_height,
      mkShape_get_width]
  · obtain ⟨n, c, y, x, _, _, _, _, rfl⟩ := eq_of_mem_resizeTrace he
    exact ⟨rfl, rfl⟩

/- ### A binary32 model of the floating-point coordinate computation

The kernel performs the coordinate computation in `float` (IEEE-754 binary32):
`scaleY = (float)Hin / (float)Hout`, `iy = (float)y * scaleY`,
`y0 = (unsigned int)floorf(iy)`.  The exact-rational embedding above is the
idealisation of this; the definitions below model the rounding that binary32
actually performs, in order to settle the claim that `y0` can never reach
`Hin`. -/

/-- Modelled from the spec: round half to even of a rational to an integer
(the tie-breaking rule of IEEE-754 round-to-nearest). -/
def rneInt (v : ℚ) : ℤ :=
  if v - ⌊v⌋ < 1 / 2 then ⌊v⌋
  else if 1 / 2 < v - ⌊v⌋ then ⌊v⌋ + 1
  else if ⌊v⌋ % 2 = 0 then ⌊v⌋ else ⌊v⌋ + 1

/-- Modelled from the spec: the distance between consecutive binary32 values
around a positive rational `q` (the unit in the last place): `2^(e-23)` where
`e` is the binary exponent, clamped below at `-126` for the subnormal range.
Magnitudes at or beyond `2^128` overflow to infinity and are not modelled;
every quantity appearing in the properties proved here stays far below
`2^128`. -/
def b32ulp (q : ℚ) : ℚ := 2 ^ (max (Int.log 2 q) (-126) - 23)

/-- Modelled from the spec: a positive rational rounded to the nearest
binary32 value, ties to even. -/
def roundB32Pos (q : ℚ) : ℚ := (rneInt (q / b32ulp q) : ℚ) * b32ulp q

/-- Modelled from the spec: a rational rounded to the nearest binary32 value,
ties to even -- the rounding applied by every binary32 arithmetic operation
and by int-to-float conversion. -/
def roundB32 (q : ℚ) : ℚ :=
  if q < 0 then -roundB32Pos (-q) else if q = 0 then 0 else roundB32Pos q

/-- The conversion `boost::numeric_cast<float>` applied to an unsigned integer (Resize.cpp
lines 51-52, 64, 77) under binary32 semantics: the conversion rounds to the
nearest representable value. -/
def castB32 (n : ℕ) : ℚ := roundB32 (n : ℚ)

/-- The scale `scaleY = (float)Hin / (float)Hout` (Resize.cpp lines 51-52) under
binary32 semantics: the correctly rounded quotient of the two converted
extents. -/
def scaleB32 (inExtent outExtent : ℕ) : ℚ :=
  roundB32 (castB32 inExtent / castB32 outExtent)

/-- The coordinate `iy = (float)y * scaleY` (Resize.cpp line 64) under binary32 semantics:
the converted output coordinate times the scale factor, correctly rounded. -/
def inCoordB32 (scale : ℚ) (o : ℕ) : ℚ := roundB32 (castB32 o * scale)

/-- The index `y0 = (unsigned int)floorf(iy)` (Resize.cpp lines 68-69) under binary32
semantics; `floorf` is exact on binary32 values. -/
def coord0B32 (scale : ℚ) (o : ℕ) : ℕ := (⌊inCoordB32 scale o⌋).toNat

/-- Claim C7 fails on the code: evaluating the kernel's floating-point
coordinate computation at `Hin = Hout = 2^25 = 33554432` and output row
`y = Hout - 1 = 33554431` (a valid input under the preconditions), the
conversion of `y` to binary32 rounds `33554431` up to `33554432`, the scale
factor is exactly `1`, and `y0` evaluates to `33554432 = Hin`: the floored
input coordinate violates the claimed bound `y0 <= Hin - 1`, and the kernel
reads input row `Hin`, one past the last valid row. -/
theorem C7_float_coordinate_escapes_bounds :
    33554431 < 33554432 ∧
    scaleB32 33554432 33554432 = 1 ∧
    coord0B32 (scaleB32 33554432 33554432) 33554431 = 33554432 ∧
    ¬ coord0B32 (scaleB32 33554432 33554432) 33554431 ≤ 33554432 - 1 := by
  have hlog25 : Int.log 2 ((33554432 : ℚ)) = 25 := by
    rw [show (33554432 : ℚ) = ((33554432 : ℕ) : ℚ) by norm_num, Int.log_natCast]
    norm_cast
    refine Nat.log_eq_of_pow_le_of_lt_pow ?_ ?_ <;> norm_num
  have hlog24 : Int.log 2 ((33554431 : ℚ)) = 24 := by
    rw [show (33554431 : ℚ) = ((33554431 : ℕ) : ℚ) by norm_num, Int.log_natCast]
    norm_cast
    refine Nat.log_eq_of_pow_le_of_lt_pow ?_ ?_ <;> norm_num
  have hround32M : roundB32 (33554432 : ℚ) = 33554432 := by
    rw [roundB32, if_neg (by norm_num), if_neg (by norm_num)]
    simp only [roundB32Pos, b32ulp]
    rw [hlog25]
    norm_num [rneInt]
  have hround1 : roundB32 (1 : ℚ) = 1 := by
    rw [roundB32, if_neg (by norm_num), if_neg (by norm_num)]
    simp only [roundB32Pos, b32ulp]
    rw [Int.log_one_right]
    norm_num [rneInt]
  have hround31 : roundB32 (33554431 : ℚ) = 33554432 := by
    rw [roundB32, if_neg (by norm_num), if_neg (by norm_num)]
    simp only [roundB32Pos, b32ulp]
    rw [hlog24]
    norm_num [rneInt]
  have hcastM : castB32 33554432 = 33554432 := by
    rw [castB32, show ((33554432 : ℕ) : ℚ) = (33554432 : ℚ) by norm_num]
    exact hround32M
  have hscale : scaleB32 33554432 33554432 = 1 := by
    rw [scaleB32, hcastM, show (33554432 : ℚ) / 33554432 = 1 by norm_num]
    exact hround1
  have hcast31 : castB32 33554431 = 33554432 := by
    rw [castB32, show ((33554431 : ℕ) : ℚ) = (33554431 : ℚ) by norm_num]
    exact hround31
  have hcoord : coord0B32 (scaleB32 33554432 33554432) 33554431 = 33554432 := by
    rw [coord0B32, hscale, inCoordB32, hcast31, mul_one, hround32M,
      show ⌊(33554432 : ℚ)⌋ = (33554432 : ℤ) by norm_num]
    rfl
  exact ⟨by norm_num, hscale, hcoord, by rw [hcoord]; norm_num⟩

/-- Claim C5 fails on the code: identity spatial extents do not reproduce the
input element-for-element once the extents reach the range where binary32 is
inexact.  At `Hin = Hout = 2^24 + 2 = 16777218` (a valid shape under the
preconditions) and output row `y = 16777217`, the scale factor is exactly `1`
as the claim says, but the conversion of `y` to binary32 ties to even and
rounds `16777217` down to `16777216`, so `iy = fiy = 16777216.0f`, the
fractional weight is `0`, and `y0 = 16777216`: both the Bilinear and the
NearestNeighbor method copy input row `16777216` into output row `16777217`
instead of row `y` itself, so the output is not an element-for-element copy of
the input. -/
theorem C5_float_identity_reads_wrong_row :
    scaleB32 16777218 16777218 = 1 ∧
    16777217 < 16777218 ∧
    inCoordB32 (scaleB32 16777218 16777218) 16777217 = 16777216 ∧
    coord0B32 (scaleB32 16777218 16777218) 16777217 = 16777216 ∧
    coord0B32 (scaleB32 16777218 16777218) 16777217 ≠ 16777217 := by
  have hlog18 : Int.log 2 ((16777218 : ℚ)) = 24 := by
    rw [show (16777218 : ℚ) = ((16777218 : ℕ) : ℚ) by norm_num, Int.log_natCast]
    norm_cast
    refine Nat.log_eq_of_pow_le_of_lt_pow ?_ ?_ <;> norm_num
  have hlog17 : Int.log 2 ((16777217 : ℚ)) = 24 := by
    rw [show (16777217 : ℚ) = ((16777217 : ℕ) : ℚ) by norm_num, Int.log_natCast]
    norm_cast
    refine Nat.log_eq_of_pow_le_of_lt_pow ?_ ?_ <;> norm_num
  have hlog16 : Int.log 2 ((16777216 : ℚ)) = 24 := by
    rw [show (16777216 : ℚ) = ((16777216 : ℕ) : ℚ) by norm_num, Int.log_natCast]
    norm_cast
    refine Nat.log_eq_of_pow_le_of_lt_pow ?_ ?_ <;> norm_num
  have hround18 : roundB32 (16777218 : ℚ) = 16777218 := by
    rw [roundB32, if_neg (by norm_num), if_neg (by norm_num)]
    simp only [roundB32Pos, b32ulp]
    rw [hlog18]
    norm_num [rneInt]
  have hround17 : roundB32 (16777217 : ℚ) = 16777216 := by
    rw [roundB32, if_neg (by norm_num), if_neg (by norm_num)]
    simp only [roundB32Pos, b32ulp]
    rw [hlog17]
    norm_num [rneInt]
  have hround16 : roundB32 (16777216 : ℚ) = 16777216 := by
    rw [roundB32, if_neg (by norm_num), if_neg (by norm_num)]
    simp only [roundB32Pos, b32ulp]
    rw [hlog16]
    norm_num [rneInt]
  have hround1 : roundB32 (1 : ℚ) = 1 := by
    rw [roundB32, if_neg (by norm_num), if_neg (by norm_num)]
    simp only [roundB32Pos, b32ulp]
    rw [Int.log_one_right]
    norm_num [rneInt]
  have hcast18 : castB32 16777218 = 16777218 := by
    rw [castB32, show ((16777218 : ℕ) : ℚ) = (16777218 : ℚ) by norm_num]
    exact hround18
  have hscale : scaleB32 16777218 16777218 = 1 := by
    rw [scaleB32, hcast18, show (16777218 : ℚ) / 16777218 = 1 by norm_num]
    exact hround1
  have hcast17 : castB32 16777217 = 16777216 := by
    rw [castB32, show ((16777217 : ℕ) : ℚ) = (16777217 : ℚ) by norm_num]
    exact hround17
  have hic : inCoordB32 (scaleB32 16777218 16777218) 16777217 = 16777216 := by
    rw [inCoordB32, hscale, hcast17, mul_one]
    exact hround16
  have hcoord : coord0B32 (scaleB32 16777218 16777218) 16777217 = 16777216 := by
    rw [coord0B32, hic, show ⌊(16777216 : ℚ)⌋ = (16777216 : ℤ) by norm_num]
    rfl
  exact ⟨hscale, by norm_num, hic, hcoord, by rw [hcoord]; norm_num⟩

end ArmnnResize
